import Mathlib

/-!
Verification of the typed-client-router engine (src/index.ts).

The router composes three collaborators that the specification treats as
external interfaces: a path matcher (the path-parser library: compile a
template, test a pathname, build a pathname), a query codec (the
query-string library: parse/stringify a search string) and a location
store (the history library: location, push/replace, change stream).
The router code itself (createRouter and its helpers getRoute,
getActiveRoute, splitParams, notify, url, push, replace, setQuery and
the derived properties current, queries, pathname) is translated
directly from src/index.ts.  The collaborators are modelled from their
documented interfaces: templates are slash-separated segments where a
segment is a literal, a named parameter (one nonempty segment,
percent-decoded) or a trailing splat (the remainder of the path); build
percent-encodes parameter values; the query codec percent-encodes keys
and values, joins entries with an ampersand and separates key from value
with an equals sign, and parse strips one leading question mark.
-/

namespace TypedClientRouter

/-- Association-list lookup, modelling access to a JS record by key
(first binding wins, which matches a record where keys are unique). -/
def alookup (k : String) : List (String × String) → Option String
  | [] => none
  | (k', v) :: rest => if k' = k then some v else alookup k rest

/-- Parameter / query mappings: ordered key-value pairs of strings. -/
abbrev Params := List (String × String)

/-! ### Percent encoding (the default url-params encoding of the matcher
and of the query codec: reserved characters are escaped, so an encoded
value never contains a slash, question mark, ampersand, equals sign,
hash or raw percent). -/

/-- Encode one character: reserved characters become a percent escape. -/
def encChar (c : Char) : List Char :=
  if c = '%' then ['%', '2', '5']
  else if c = '/' then ['%', '2', 'F']
  else if c = '?' then ['%', '3', 'F']
  else if c = '&' then ['%', '2', '6']
  else if c = '=' then ['%', '3', 'D']
  else if c = '#' then ['%', '2', '3']
  else [c]

/-- Encode a character list. -/
def encodeChars (cs : List Char) : List Char :=
  (cs.map encChar).flatten

/-- Map a two-character escape back to the escaped character. -/
def unescape (a b : Char) : Option Char :=
  if a = '2' ∧ b = '5' then some '%'
  else if a = '2' ∧ b = 'F' then some '/'
  else if a = '3' ∧ b = 'F' then some '?'
  else if a = '2' ∧ b = '6' then some '&'
  else if a = '3' ∧ b = 'D' then some '='
  else if a = '2' ∧ b = '3' then some '#'
  else none

/-- Decode a character list: recognised percent escapes are undone,
anything else passes through unchanged. -/
def decodeChars : List Char → List Char
  | [] => []
  | '%' :: a :: b :: rest =>
    match unescape a b with
    | some d => d :: decodeChars rest
    | none => '%' :: a :: b :: decodeChars rest
  | c :: rest => c :: decodeChars rest

/-! ### Splitting and joining on a separator character (the string
split/join used for path segments and query entries). -/

/-- Split a character list on a separator; always returns at least one
(possibly empty) piece, like JS string split. -/
def splitOnChar (sep : Char) : List Char → List (List Char)
  | [] => [[]]
  | c :: cs =>
    if c = sep then [] :: splitOnChar sep cs
    else
      match splitOnChar sep cs with
      | [] => [[c]]
      | s :: ss => (c :: s) :: ss

/-- Join pieces with a separator character, like JS array join. -/
def joinChar (sep : Char) : List (List Char) → List Char
  | [] => []
  | [s] => s
  | s :: ss => s ++ sep :: joinChar sep ss

/-! ### The path matcher (path-parser collaborator) -/

/-- One compiled template segment: a literal, a named single-segment
parameter, or a trailing splat capturing the remainder of the path. -/
inductive Seg where
  | lit (cs : List Char)
  | param (name : String)
  | splat (name : String)
  deriving DecidableEq, Repr

/-- A compiled path template. -/
structure Path where
  segs : List Seg
  deriving DecidableEq, Repr

/-- Compile one template segment. -/
def parseSeg (cs : List Char) : Seg :=
  match cs with
  | [] => .lit []
  | c :: rest =>
    if c = ':' then .param ⟨rest⟩
    else if c = '*' then .splat ⟨rest⟩
    else .lit (c :: rest)

/-- Compile a template string into a matcher (new Path(template)). -/
def Path.compile (tpl : String) : Path :=
  ⟨(splitOnChar '/' tpl.data).map parseSeg⟩

/-- The placeholder names of a segment list, in template order. -/
def segParamNames (segs : List Seg) : List String :=
  segs.filterMap fun s =>
    match s with
    | .lit _ => none
    | .param n => some n
    | .splat n => some n

/-- The placeholder names exposed by a compiled matcher (path.params in
path-parser: url parameters and splat parameters, in template order). -/
def Path.paramNames (p : Path) : List String :=
  segParamNames p.segs

/-- Whether a segment list contains a splat segment. -/
def hasSplat (segs : List Seg) : Bool :=
  segs.any fun s =>
    match s with
    | .splat _ => true
    | _ => false

/-- Match compiled segments against the split pathname; a literal must
be equal, a parameter captures one nonempty segment (decoded), a
trailing splat captures the joined remainder (decoded). -/
def matchSegs : List Seg → List (List Char) → Option Params
  | [], [] => some []
  | [.splat n], xs => some [(n, ⟨decodeChars (joinChar '/' xs)⟩)]
  | .lit l :: r, x :: xs => if x = l then matchSegs r xs else none
  | .param n :: r, x :: xs =>
    if x = [] then none
    else (matchSegs r xs).map (fun ps => (n, ⟨decodeChars x⟩) :: ps)
  | _, _ => none

/-- path.test(pathname): captured parameters, or none on no match. -/
def Path.test (p : Path) (pathname : String) : Option Params :=
  matchSegs p.segs (splitOnChar '/' pathname.data)

/-- Build one segment from the supplied path parameters; a missing
value for a placeholder is a build error. -/
def buildSeg (pp : Params) : Seg → Except String (List Char)
  | .lit l => .ok l
  | .param n =>
    match alookup n pp with
    | some v => .ok (encodeChars v.data)
    | none => .error ("Cannot build path: missing parameter " ++ n)
  | .splat n =>
    match alookup n pp with
    | some v => .ok (encodeChars v.data)
    | none => .error ("Cannot build path: missing parameter " ++ n)

/-- Build every segment, stopping at the first build error. -/
def buildAll (pp : Params) : List Seg → Except String (List (List Char))
  | [] => .ok []
  | s :: rest =>
    match buildSeg pp s, buildAll pp rest with
    | .ok x, .ok xs => .ok (x :: xs)
    | .error e, _ => .error e
    | _, .error e => .error e

/-- path.build(params): the pathname with placeholders substituted by
the encoded supplied values. -/
def Path.build (p : Path) (pp : Params) : Except String String :=
  (buildAll pp p.segs).map fun pieces => ⟨joinChar '/' pieces⟩

/-! ### The query codec (query-string collaborator) -/

/-- Encode one query entry as key=value with both sides encoded. -/
def encodePair (kv : String × String) : List Char :=
  encodeChars kv.1.data ++ '=' :: encodeChars kv.2.data

/-- queryString.stringify: entries joined with an ampersand; the empty
mapping serializes to the empty string. -/
def stringify (q : Params) : String :=
  ⟨joinChar '&' (q.map encodePair)⟩

/-- Split a query entry at its first equals sign. -/
def splitEq : List Char → List Char × List Char
  | [] => ([], [])
  | c :: rest =>
    if c = '=' then ([], rest)
    else
      let (a, b) := splitEq rest
      (c :: a, b)

/-- Decode one query entry into a key-value pair. -/
def parsePiece (cs : List Char) : String × String :=
  let (a, b) := splitEq cs
  (⟨decodeChars a⟩, ⟨decodeChars b⟩)

/-- queryString.parse: strip one leading question mark, split on
ampersands, decode each entry; the empty search is the empty mapping. -/
def parse (s : String) : Params :=
  let cs := if s.data.head? = some '?' then s.data.tail else s.data
  if cs = [] then [] else (splitOnChar '&' cs).map parsePiece

/-! ### The location store (history collaborator) -/

/-- A location: pathname plus search string. -/
structure Location where
  pathname : String
  search : String
  deriving DecidableEq, Repr

/-- The action kind carried by a history change event. -/
inductive HAction where
  | push
  | replace
  | pop
  deriving DecidableEq, Repr

/-- A history change event: the action and whether the associated state
carries the query-only marker (location.state.isQueryUpdate). -/
structure Update where
  action : HAction
  isQueryUpdate : Bool
  deriving DecidableEq, Repr

/-! ### The router (createRouter in src/index.ts) -/

/-- One entry of the routes array built by createRouter: a name paired
with its compiled matcher. -/
structure Route where
  name : String
  path : Path
  deriving DecidableEq, Repr

/-- Base normalization at construction: a lone slash collapses to the
empty string; a nonempty base lacking a leading slash gets one. -/
def normBase : Option String → String
  | none => ""
  | some b =>
    if b = "/" then ""
    else if b ≠ "" ∧ b.data.head? ≠ some '/' then "/" ++ b
    else b

/-- config[route].split(sep)[0] for the query-declaration delimiter:
the path portion of the template, up to the first question mark. -/
def stripQuery (t : String) : String :=
  ⟨t.data.takeWhile (fun c => c ≠ '?')⟩

/-- The routes array built in the createRouter construction loop: each
configured template has its query declaration stripped, the normalized
base prepended, and is compiled into a matcher. -/
def createRoutes (config : List (String × String)) (base : Option String) :
    List Route :=
  config.map fun nt => ⟨nt.1, Path.compile (normBase base ++ stripQuery nt.2)⟩

/-- getRoute: exact lookup by name, a lookup error when absent. -/
def getRoute (routes : List Route) (name : String) : Except String Route :=
  match routes.find? (fun r => r.name == name) with
  | some r => .ok r
  | none => .error ("Can not find route for " ++ name)

/-- getActiveRoute: the first route whose matcher accepts the pathname. -/
def getActiveRoute (routes : List Route) (pathname : String) : Option Route :=
  routes.find? (fun r => (r.path.test pathname).isSome)

/-- The params getter of a resolved route:
this.path.test(history.location.pathname) with an empty-mapping
fallback. -/
def Route.currentParams (r : Route) (pathname : String) : Params :=
  (r.path.test pathname).getD []

/-- splitParams: partition the caller-supplied values into path
parameters (keys among the placeholder names of the matcher) and query
parameters (the rest); entries with an undefined value are dropped. -/
def splitParams (names : List String) :
    List (String × Option String) → Params × Params
  | [] => ([], [])
  | (_, none) :: rest => splitParams names rest
  | (k, some v) :: rest =>
    let (pp, qp) := splitParams names rest
    if k ∈ names then ((k, v) :: pp, qp) else (pp, (k, v) :: qp)

/-- url(name, params): look the route up, split the values, build the
pathname, encode the query bucket training, and append it after a question
mark only when nonempty. -/
def url (routes : List Route) (name : String)
    (values : List (String × Option String)) : Except String String :=
  match getRoute routes name with
  | .error e => .error e
  | .ok route =>
    match route.path.build (splitParams route.path.paramNames values).1 with
    | .error e => .error e
    | .ok pathname =>
      if stringify (splitParams route.path.paramNames values).2 = ""
      then .ok pathname
      else .ok (pathname ++ "?" ++
        stringify (splitParams route.path.paramNames values).2)

/-- The mutable state the router closes over: the routes array, the
current location of the location store, and the listener set (listeners
identified by numbers). -/
structure RouterState where
  routes : List Route
  loc : Location
  listeners : List Nat
  deriving DecidableEq, Repr

/-- push(name, params): on success the location store receives the
built pathname and encoded search; a lookup or build error is thrown
before any state is touched. -/
def pushCall (st : RouterState) (name : String)
    (values : List (String × Option String)) :
    RouterState × Except String Unit :=
  match getRoute st.routes name with
  | .error e => (st, .error e)
  | .ok route =>
    let (pp, qp) := splitParams route.path.paramNames values
    match route.path.build pp with
    | .error e => (st, .error e)
    | .ok p =>
      ({ st with loc := { pathname := p, search := stringify qp } }, .ok ())

/-- replace(name, params): same split and build as push, delegating to
the replace of the location store. -/
def replaceCall (st : RouterState) (name : String)
    (values : List (String × Option String)) :
    RouterState × Except String Unit :=
  match getRoute st.routes name with
  | .error e => (st, .error e)
  | .ok route =>
    let (pp, qp) := splitParams route.path.paramNames values
    match route.path.build pp with
    | .error e => (st, .error e)
    | .ok p =>
      ({ st with loc := { pathname := p, search := stringify qp } }, .ok ())

/-- The update event generated by the location store for a router push
(no associated state, hence no query-only marker). -/
def pushUpdate : Update := ⟨HAction.push, false⟩

/-- The update event generated by the location store for a router
replace (no associated state, hence no query-only marker). -/
def replaceUpdate : Update := ⟨HAction.replace, false⟩

/-- notify: the list of listener invocations caused by one location
change event, each paired with the resolved route passed to it.  A
replace event whose state carries the query-only marker causes an early
return, so no listener is invoked. -/
def notifyCalls (u : Update) (st : RouterState) :
    List (Nat × Option Route) :=
  if u.action = HAction.replace ∧ u.isQueryUpdate = true then []
  else st.listeners.map fun l =>
    (l, getActiveRoute st.routes st.loc.pathname)

/-- The query update performed by setQuery: delete the key when the
value is undefined, otherwise set it (in place when present, appended
when new, as the JS object spread does). -/
def updateQuery (q : Params) (k : String) : Option String → Params
  | none => q.filter fun kv => kv.1 ≠ k
  | some v =>
    if k ∈ q.map Prod.fst then
      q.map fun kv => if kv.1 = k then (kv.1, v) else kv
    else q ++ [(k, v)]

/-- setQuery(key, value): parse the current search, update the mapping,
and replace with the same pathname and a search of a question mark
followed by the serialization, tagging the call with the query-only
marker. -/
def setQuery (loc : Location) (k : String) (v : Option String) :
    Location × Update :=
  let q := parse loc.search
  let q2 := updateQuery q k v
  ({ pathname := loc.pathname, search := "?" ++ stringify q2 },
   { action := HAction.replace, isQueryUpdate := true })

/-- The current getter: getActiveRoute on the pathname of the
location store. -/
def currentRoute (st : RouterState) : Option Route :=
  getActiveRoute st.routes st.loc.pathname

/-- Drop the first n characters of a string (String.substring from an
index, measured in characters). -/
def strDrop (s : String) (n : Nat) : String :=
  ⟨s.data.drop n⟩

/-- The pathname getter: the pathname of the location store with the
length of the normalized base removed from the front, in characters. -/
def routerPathname (base : Option String) (loc : Location) : String :=
  strDrop loc.pathname (normBase base).length

/-! ### Lemmas about the percent encoding -/

theorem encodeChars_nil : encodeChars [] = [] := rfl

theorem encodeChars_cons (c : Char) (cs : List Char) :
    encodeChars (c :: cs) = encChar c ++ encodeChars cs := by
  simp [encodeChars]

theorem encChar_ne_nil (c : Char) : encChar c ≠ [] := by
  unfold encChar
  repeat' split
  all_goals simp

theorem encodeChars_eq_nil {cs : List Char} :
    encodeChars cs = [] ↔ cs = [] := by
  cases cs with
  | nil => simp [encodeChars_nil]
  | cons c cs =>
    simp only [encodeChars_cons]
    constructor
    · intro h
      exact absurd (List.append_eq_nil.mp h).1 (encChar_ne_nil c)
    · intro h
      exact absurd h (by simp)

theorem mem_encChar {x c : Char} (h : x ∈ encChar c) :
    x ∉ (['/', '?', '&', '=', '#'] : List Char) := by
  unfold encChar at h
  repeat' split at h
  all_goals simp_all
  all_goals rcases h with rfl | rfl | rfl <;> decide

theorem mem_encodeChars {x : Char} {cs : List Char}
    (h : x ∈ encodeChars cs) :
    x ∉ (['/', '?', '&', '=', '#'] : List Char) := by
  induction cs with
  | nil => simp [encodeChars_nil] at h
  | cons c cs ih =>
    rw [encodeChars_cons, List.mem_append] at h
    rcases h with h | h
    · exact mem_encChar h
    · exact ih h

theorem decodeChars_encChar (c : Char) (t : List Char) :
    decodeChars (encChar c ++ t) = c :: decodeChars t := by
  by_cases h1 : c = '%'
  · subst h1; simp [encChar, decodeChars, unescape]
  by_cases h2 : c = '/'
  · subst h2; simp [encChar, decodeChars, unescape]
  by_cases h3 : c = '?'
  · subst h3; simp [encChar, decodeChars, unescape]
  by_cases h4 : c = '&'
  · subst h4; simp [encChar, decodeChars, unescape]
  by_cases h5 : c = '='
  · subst h5; simp [encChar, decodeChars, unescape]
  by_cases h6 : c = '#'
  · subst h6; simp [encChar, decodeChars, unescape]
  have he : encChar c = [c] := by
    simp [encChar, h1, h2, h3, h4, h5, h6]
  rw [he]
  cases t with
  | nil => simp [decodeChars, h1]
  | cons a t' =>
    cases t' with
    | nil => simp [decodeChars, h1]
    | cons b t'' => simp [decodeChars, h1]

theorem decodeChars_encodeChars_append (cs t : List Char) :
    decodeChars (encodeChars cs ++ t) = cs ++ decodeChars t := by
  induction cs with
  | nil => simp [encodeChars_nil]
  | cons c cs ih =>
    rw [encodeChars_cons, List.append_assoc, decodeChars_encChar, ih]
    rfl

theorem decodeChars_encodeChars (cs : List Char) :
    decodeChars (encodeChars cs) = cs := by
  have := decodeChars_encodeChars_append cs []
  simpa [decodeChars] using this

/-! ### Lemmas about splitting and joining on a separator -/

theorem splitOnChar_ne_nil (sep : Char) (cs : List Char) :
    splitOnChar sep cs ≠ [] := by
  induction cs with
  | nil => simp [splitOnChar]
  | cons c cs ih =>
    simp only [splitOnChar]
    split
    · simp
    · split
      · simp
      · simp

theorem splitOnChar_of_not_mem {sep : Char} {p : List Char}
    (h : sep ∉ p) : splitOnChar sep p = [p] := by
  induction p with
  | nil => rfl
  | cons c cs ih =>
    have hc : ¬ c = sep := fun hcc => h (by simp [hcc])
    have hcs : sep ∉ cs := fun hm => h (by simp [hm])
    simp only [splitOnChar, if_neg hc, ih hcs]

theorem splitOnChar_append_sep {sep : Char} {p : List Char}
    (t : List Char) (h : sep ∉ p) :
    splitOnChar sep (p ++ sep :: t) = p :: splitOnChar sep t := by
  induction p with
  | nil => simp [splitOnChar]
  | cons c cs ih =>
    have hc : ¬ c = sep := fun hcc => h (by simp [hcc])
    have hcs : sep ∉ cs := fun hm => h (by simp [hm])
    simp only [List.cons_append, splitOnChar, if_neg hc, List.append_eq,
      ih hcs]

theorem splitOnChar_joinChar {sep : Char} {ps : List (List Char)}
    (hne : ps ≠ []) (h : ∀ p ∈ ps, sep ∉ p) :
    splitOnChar sep (joinChar sep ps) = ps := by
  induction ps with
  | nil => exact absurd rfl hne
  | cons p ps ih =>
    cases ps with
    | nil =>
      simp only [joinChar]
      exact splitOnChar_of_not_mem (h p (by simp))
    | cons q ps' =>
      have hj : joinChar sep (p :: q :: ps') =
          p ++ sep :: joinChar sep (q :: ps') := rfl
      rw [hj, splitOnChar_append_sep _ (h p (by simp)),
        ih (by simp) (fun r hr => h r (by simp [hr]))]

theorem mem_joinChar {c sep : Char} {ps : List (List Char)}
    (h : c ∈ joinChar sep ps) : c = sep ∨ ∃ p ∈ ps, c ∈ p := by
  induction ps with
  | nil => simp [joinChar] at h
  | cons p ps ih =>
    cases ps with
    | nil =>
      simp only [joinChar] at h
      exact Or.inr ⟨p, by simp, h⟩
    | cons q ps' =>
      have hj : joinChar sep (p :: q :: ps') =
          p ++ sep :: joinChar sep (q :: ps') := rfl
      rw [hj, List.mem_append] at h
      rcases h with h | h
      · exact Or.inr ⟨p, by simp, h⟩
      · rcases List.mem_cons.mp h with h | h
        · exact Or.inl h
        · rcases ih h with h | ⟨r, hr, hcr⟩
          · exact Or.inl h
          · exact Or.inr ⟨r, by simp [List.mem_cons.mp hr], hcr⟩

theorem mem_of_mem_splitOnChar {c sep : Char} {cs : List Char}
    {p : List Char} (hp : p ∈ splitOnChar sep cs) (hc : c ∈ p) :
    c ∈ cs := by
  induction cs generalizing p with
  | nil =>
    simp [splitOnChar] at hp
    subst hp
    simp at hc
  | cons d ds ih =>
    simp only [splitOnChar] at hp
    split at hp
    · rcases List.mem_cons.mp hp with rfl | hp
      · simp at hc
      · exact List.mem_cons_of_mem _ (ih hp hc)
    · rename_i hd
      rcases hsp : splitOnChar sep ds with _ | ⟨s, ss⟩
      · exact absurd hsp (splitOnChar_ne_nil sep ds)
      · rw [hsp] at hp
        rcases List.mem_cons.mp hp with rfl | hp
        · rcases List.mem_cons.mp hc with rfl | hc
          · simp
          · exact List.mem_cons_of_mem _ (ih (by rw [hsp]; simp) hc)
        · exact List.mem_cons_of_mem _ (ih (by rw [hsp]; simp [hp]) hc)

theorem not_mem_of_mem_splitOnChar {sep : Char} {cs : List Char}
    {p : List Char} (hp : p ∈ splitOnChar sep cs) : sep ∉ p := by
  induction cs generalizing p with
  | nil =>
    simp [splitOnChar] at hp
    subst hp
    simp
  | cons d ds ih =>
    simp only [splitOnChar] at hp
    split at hp
    · rcases List.mem_cons.mp hp with rfl | hp
      · simp
      · exact ih hp
    · rename_i hd
      rcases hsp : splitOnChar sep ds with _ | ⟨s, ss⟩
      · exact absurd hsp (splitOnChar_ne_nil sep ds)
      · rw [hsp] at hp
        rcases List.mem_cons.mp hp with rfl | hp
        · intro hmem
          rcases List.mem_cons.mp hmem with rfl | hmem
          · exact hd rfl
          · exact ih (by rw [hsp]; simp) hmem
        · exact ih (by rw [hsp]; simp [hp])

/-! ### Lemmas about the query codec -/

theorem splitEq_append {a : List Char} (b : List Char) (h : '=' ∉ a) :
    splitEq (a ++ '=' :: b) = (a, b) := by
  induction a with
  | nil => simp [splitEq]
  | cons c cs ih =>
    have hc : ¬ c = '=' := fun hcc => h (by simp [hcc])
    have hcs : '=' ∉ cs := fun hm => h (by simp [hm])
    simp [splitEq, hc, ih hcs]

theorem parsePiece_encodePair (kv : String × String) :
    parsePiece (encodePair kv) = kv := by
  have hk : '=' ∉ encodeChars kv.1.data := fun hm => by
    have := mem_encodeChars hm
    simp at this
  unfold parsePiece encodePair
  rw [splitEq_append _ hk]
  simp [decodeChars_encodeChars]

theorem mem_encodePair {c : Char} {kv : String × String}
    (h : c ∈ encodePair kv) :
    c = '=' ∨ c ∈ encodeChars kv.1.data ∨ c ∈ encodeChars kv.2.data := by
  unfold encodePair at h
  rw [List.mem_append, List.mem_cons] at h
  tauto

theorem eq_mem_encodePair (kv : String × String) : '=' ∈ encodePair kv := by
  unfold encodePair
  simp

theorem data_mk (l : List Char) : (String.mk l).data = l := rfl

theorem stringify_nil : stringify [] = "" := rfl

theorem eq_mem_stringify {q : Params} (h : q ≠ []) :
    '=' ∈ (stringify q).data := by
  cases q with
  | nil => exact absurd rfl h
  | cons kv rest =>
    show '=' ∈ joinChar '&' ((kv :: rest).map encodePair)
    cases rest with
    | nil => simpa [joinChar] using eq_mem_encodePair kv
    | cons kv2 rest2 =>
      have : joinChar '&' (encodePair kv :: (kv2 :: rest2).map encodePair) =
          encodePair kv ++ '&' :: joinChar '&' ((kv2 :: rest2).map encodePair) :=
        rfl
      simp only [List.map_cons] at *
      rw [this, List.mem_append]
      exact Or.inl (eq_mem_encodePair kv)

theorem stringify_eq_empty {q : Params} : stringify q = "" ↔ q = [] := by
  constructor
  · intro h
    by_contra hq
    have := eq_mem_stringify hq
    rw [h] at this
    simp at this
  · intro h
    rw [h, stringify_nil]

theorem mem_stringify_data {c : Char} {q : Params}
    (h : c ∈ (stringify q).data) :
    c = '&' ∨ c = '=' ∨ ∃ kv ∈ q, c ∈ encodeChars kv.1.data ∨
      c ∈ encodeChars kv.2.data := by
  have h' : c ∈ joinChar '&' (q.map encodePair) := h
  rcases mem_joinChar h' with h' | ⟨p, hp, hcp⟩
  · exact Or.inl h'
  · rcases List.mem_map.mp hp with ⟨kv, hkv, rfl⟩
    rcases mem_encodePair hcp with h'' | h''
    · exact Or.inr (Or.inl h'')
    · exact Or.inr (Or.inr ⟨kv, hkv, h''⟩)

theorem parse_stringify (q : Params) : parse (stringify q) = q := by
  cases q with
  | nil => rfl
  | cons kv rest =>
    have hq : '?' ∉ (stringify (kv :: rest)).data := by
      intro hm
      rcases mem_stringify_data hm with h | h | ⟨kv', _, h | h⟩
      · simp at h
      · simp at h
      · exact absurd (by simp) (mem_encodeChars h)
      · exact absurd (by simp) (mem_encodeChars h)
    have hne : (stringify (kv :: rest)).data ≠ [] := by
      intro h0
      have := @eq_mem_stringify (kv :: rest) (by simp)
      rw [h0] at this
      simp at this
    have hhead : (stringify (kv :: rest)).data.head? ≠ some '?' := by
      intro hh
      exact hq (by
        cases hd : (stringify (kv :: rest)).data with
        | nil => simp [hd] at hh
        | cons c t =>
          rw [hd] at hh
          simp at hh
          simp [hd, hh])
    have hpieces : ∀ p ∈ ((kv :: rest).map encodePair), '&' ∉ p := by
      intro p hp hm
      rcases List.mem_map.mp hp with ⟨kv', _, rfl⟩
      rcases mem_encodePair hm with h | h | h
      · simp at h
      · exact absurd (by simp) (mem_encodeChars h)
      · exact absurd (by simp) (mem_encodeChars h)
    unfold parse
    rw [if_neg hhead, if_neg hne]
    have hdata : (stringify (kv :: rest)).data =
        joinChar '&' ((kv :: rest).map encodePair) := rfl
    rw [hdata, splitOnChar_joinChar (by simp) hpieces, List.map_map]
    have : parsePiece ∘ encodePair = id := by
      funext kv'
      simp [parsePiece_encodePair]
    rw [this, List.map_id]

/-! ### Lemmas about the path matcher -/

theorem parseSeg_lit {p l : List Char} (h : parseSeg p = .lit l) : l = p := by
  cases p with
  | nil =>
    simp only [parseSeg] at h
    injection h with h
    exact h.symm
  | cons c rest =>
    simp only [parseSeg] at h
    split at h
    · exact absurd h (by simp)
    · split at h
      · exact absurd h (by simp)
      · injection h with h
        exact h.symm

theorem compile_segs_ne_nil (t : String) : (Path.compile t).segs ≠ [] := by
  intro h
  have h' : (splitOnChar '/' t.data).map parseSeg = [] := h
  rcases hsp : splitOnChar '/' t.data with _ | ⟨s, ss⟩
  · exact splitOnChar_ne_nil '/' t.data hsp
  · rw [hsp] at h'
    simp at h'

theorem compile_lit_no_slash {t : String} {l : List Char}
    (h : Seg.lit l ∈ (Path.compile t).segs) : '/' ∉ l := by
  unfold Path.compile at h
  rcases List.mem_map.mp h with ⟨p, hp, hps⟩
  rw [parseSeg_lit hps]
  exact not_mem_of_mem_splitOnChar hp

theorem compile_lit_sub {t : String} {l : List Char}
    (h : Seg.lit l ∈ (Path.compile t).segs) : ∀ c ∈ l, c ∈ t.data := by
  unfold Path.compile at h
  rcases List.mem_map.mp h with ⟨p, hp, hps⟩
  rw [parseSeg_lit hps]
  exact fun c hc => mem_of_mem_splitOnChar hp hc

theorem buildAll_length {pp : Params} {segs : List Seg}
    {pieces : List (List Char)} (hb : buildAll pp segs = .ok pieces) :
    pieces.length = segs.length := by
  induction segs generalizing pieces with
  | nil =>
    simp [buildAll] at hb
    simp [← hb]
  | cons s rest ih =>
    simp only [buildAll] at hb
    cases hbs : buildSeg pp s with
    | error e => rw [hbs] at hb; simp at hb
    | ok x =>
      rw [hbs] at hb
      cases hbr : buildAll pp rest with
      | error e => rw [hbr] at hb; simp at hb
      | ok xs =>
        rw [hbr] at hb
        simp only [Except.ok.injEq] at hb
        rw [← hb]
        simp [ih hbr]

theorem buildAll_mem {pp : Params} {segs : List Seg}
    {pieces : List (List Char)} (hb : buildAll pp segs = .ok pieces) :
    ∀ x ∈ pieces,
      (∃ l, Seg.lit l ∈ segs ∧ x = l) ∨ ∃ cs, x = encodeChars cs := by
  induction segs generalizing pieces with
  | nil =>
    simp only [buildAll, Except.ok.injEq] at hb
    subst hb
    simp
  | cons s rest ih =>
    simp only [buildAll] at hb
    cases hbs : buildSeg pp s with
    | error e => rw [hbs] at hb; simp at hb
    | ok x =>
      rw [hbs] at hb
      cases hbr : buildAll pp rest with
      | error e => rw [hbr] at hb; simp at hb
      | ok xs =>
        rw [hbr] at hb
        simp only [Except.ok.injEq] at hb
        subst hb
        intro y hy
        rcases List.mem_cons.mp hy with rfl | hy
        · cases s with
          | lit l =>
            simp only [buildSeg, Except.ok.injEq] at hbs
            exact Or.inl ⟨l, by simp, hbs.symm⟩
          | param n =>
            simp only [buildSeg] at hbs
            cases hl : alookup n pp with
            | none => rw [hl] at hbs; simp at hbs
            | some v =>
              rw [hl] at hbs
              simp only [Except.ok.injEq] at hbs
              exact Or.inr ⟨v.data, hbs.symm⟩
          | splat n =>
            simp only [buildSeg] at hbs
            cases hl : alookup n pp with
            | none => rw [hl] at hbs; simp at hbs
            | some v =>
              rw [hl] at hbs
              simp only [Except.ok.injEq] at hbs
              exact Or.inr ⟨v.data, hbs.symm⟩
        · rcases ih hbr y hy with ⟨l, hl, hx⟩ | h
          · exact Or.inl ⟨l, by simp [hl], hx⟩
          · exact Or.inr h

theorem matchSegs_buildAll {segs : List Seg} {pp : Params}
    {pieces : List (List Char)}
    (hs : hasSplat segs = false)
    (hb : buildAll pp segs = .ok pieces)
    (hne : ∀ n v, Seg.param n ∈ segs → alookup n pp = some v → v ≠ "") :
    ∃ ps, matchSegs segs pieces = some ps ∧
      ∀ k, alookup k ps =
        if k ∈ segParamNames segs then alookup k pp else none := by
  induction segs generalizing pieces with
  | nil =>
    simp [buildAll] at hb
    subst hb
    exact ⟨[], rfl, fun k => by simp [segParamNames, alookup]⟩
  | cons s rest ih =>
    have hs' : hasSplat rest = false := by
      simp only [hasSplat, List.any_cons, Bool.or_eq_false_iff] at hs
      exact hs.2
    have hne' : ∀ n v, Seg.param n ∈ rest → alookup n pp = some v →
        v ≠ "" :=
      fun n v hmem hl => hne n v (List.mem_cons_of_mem _ hmem) hl
    simp only [buildAll] at hb
    cases hbs : buildSeg pp s with
    | error e => rw [hbs] at hb; simp at hb
    | ok x =>
      rw [hbs] at hb
      cases hbr : buildAll pp rest with
      | error e => rw [hbr] at hb; simp at hb
      | ok xs =>
        rw [hbr] at hb
        simp only [Except.ok.injEq] at hb
        subst hb
        obtain ⟨ps, hm, hlk⟩ := ih hs' hbr hne'
        cases s with
        | lit l =>
          simp only [buildSeg, Except.ok.injEq] at hbs
          subst hbs
          refine ⟨ps, ?_, ?_⟩
          · simp [matchSegs, hm]
          · intro k
            have hseg : segParamNames (Seg.lit l :: rest) =
                segParamNames rest := by simp [segParamNames]
            rw [hseg]
            exact hlk k
        | param n =>
          simp only [buildSeg] at hbs
          cases hl : alookup n pp with
          | none => rw [hl] at hbs; simp at hbs
          | some v =>
            rw [hl] at hbs
            simp only [Except.ok.injEq] at hbs
            subst hbs
            have hvne : v ≠ "" := hne n v (by simp) hl
            have hxne : ¬ encodeChars v.data = [] := by
              rw [encodeChars_eq_nil]
              intro hd
              apply hvne
              cases v
              simp only [String.data] at hd
              simp [hd]
            refine ⟨(n, v) :: ps, ?_, ?_⟩
            · simp only [matchSegs, if_neg hxne, hm, Option.map_some]
              rw [decodeChars_encodeChars]
              rfl
            · intro k
              have hn : segParamNames (Seg.param n :: rest) =
                  n :: segParamNames rest := by simp [segParamNames]
              rw [hn]
              by_cases hkn : n = k
              · subst hkn
                simp [alookup, hl]
              · simp only [alookup, if_neg hkn, hlk k, List.mem_cons]
                have : (k = n ∨ k ∈ segParamNames rest) ↔
                    k ∈ segParamNames rest := by
                  constructor
                  · rintro (rfl | h)
                    · exact absurd rfl hkn
                    · exact h
                  · exact Or.inr
                rw [if_congr this rfl rfl]
        | splat n =>
          simp [hasSplat] at hs

theorem test_build {p : Path} {pp : Params} {s : String}
    (hs : hasSplat p.segs = false)
    (hnil : p.segs ≠ [])
    (hlit : ∀ l, Seg.lit l ∈ p.segs → '/' ∉ l)
    (hb : p.build pp = .ok s)
    (hne : ∀ n v, Seg.param n ∈ p.segs → alookup n pp = some v → v ≠ "") :
    ∃ ps, p.test s = some ps ∧
      ∀ k, alookup k ps =
        if k ∈ p.paramNames then alookup k pp else none := by
  unfold Path.build at hb
  cases hball : buildAll pp p.segs with
  | error e => rw [hball] at hb; simp [Except.map] at hb
  | ok pieces =>
    rw [hball] at hb
    simp only [Except.map, Except.ok.injEq] at hb
    obtain ⟨ps, hm, hlk⟩ := matchSegs_buildAll hs hball hne
    have hlen := buildAll_length hball
    have hpne : pieces ≠ [] := by
      intro h0
      have h1 : p.segs.length = 0 := by
        rw [h0] at hlen
        simpa using hlen.symm
      exact hnil (List.eq_nil_of_length_eq_zero h1)
    have hpieces : ∀ q ∈ pieces, '/' ∉ q := by
      intro q hq
      rcases buildAll_mem hball q hq with ⟨l, hlmem, hql⟩ | ⟨cs, hqcs⟩
      · rw [hql]
        exact hlit l hlmem
      · rw [hqcs]
        intro hm2
        exact (mem_encodeChars hm2) (by simp)
    refine ⟨ps, ?_, hlk⟩
    rw [← hb]
    show matchSegs p.segs (splitOnChar '/' (joinChar '/' pieces)) = some ps
    rw [splitOnChar_joinChar hpne hpieces, hm]

/-! ### First-match lemmas about List.find? -/

theorem find?_first {α : Type} (p : α → Bool) :
    ∀ (l : List α) (i : Nat) (x : α), l[i]? = some x → p x = true →
      (∀ j : Nat, j < i → ∀ y, l[j]? = some y → p y = false) →
      l.find? p = some x := by
  intro l
  induction l with
  | nil => intro i x hx _ _; simp at hx
  | cons a l ih =>
    intro i x hx hpx hj
    cases i with
    | zero =>
      simp at hx
      subst hx
      simp [List.find?_cons, hpx]
    | succ i' =>
      have ha : p a = false := hj 0 (Nat.succ_pos i') a (by simp)
      simp only [List.getElem?_cons_succ] at hx
      rw [List.find?_cons, ha]
      exact ih i' x hx hpx fun j hjlt y hy =>
        hj (j + 1) (Nat.succ_lt_succ hjlt) y (by simpa using hy)

theorem find?_spec {α : Type} (p : α → Bool) :
    ∀ (l : List α) (x : α), l.find? p = some x →
      ∃ i : Nat, l[i]? = some x ∧ p x = true ∧
        ∀ j : Nat, j < i → ∀ y, l[j]? = some y → p y = false := by
  intro l
  induction l with
  | nil => intro x hx; simp at hx
  | cons a l ih =>
    intro x hx
    rw [List.find?_cons] at hx
    cases hpa : p a with
    | true =>
      rw [hpa] at hx
      simp at hx
      subst hx
      exact ⟨0, by simp, hpa, fun j hj y => absurd hj (by simp)⟩
    | false =>
      rw [hpa] at hx
      obtain ⟨i, hi, hpx, hj⟩ := ih x hx
      refine ⟨i + 1, by simpa using hi, hpx, ?_⟩
      intro j hjlt y hy
      cases j with
      | zero =>
        simp at hy
        subst hy
        exact hpa
      | succ j' =>
        simp only [List.getElem?_cons_succ] at hy
        exact hj j' (Nat.lt_of_succ_lt_succ hjlt) y hy

/-! ### Lemmas about getRoute and splitParams -/

theorem getRoute_ok_iff {routes : List Route} {name : String} {r : Route} :
    getRoute routes name = .ok r ↔
      routes.find? (fun r' => r'.name == name) = some r := by
  unfold getRoute
  cases h : routes.find? (fun r' => r'.name == name) <;> simp

theorem getRoute_ok_name {routes : List Route} {name : String} {r : Route}
    (h : getRoute routes name = .ok r) : r.name = name := by
  have := List.find?_some (getRoute_ok_iff.mp h)
  exact beq_iff_eq.mp this

theorem getRoute_ok_mem {routes : List Route} {name : String} {r : Route}
    (h : getRoute routes name = .ok r) : r ∈ routes :=
  List.mem_of_find?_eq_some (getRoute_ok_iff.mp h)

theorem getRoute_error_of_absent {routes : List Route} {name : String}
    (h : name ∉ routes.map Route.name) :
    getRoute routes name =
      .error ("Can not find route for " ++ name) := by
  unfold getRoute
  have hfind : routes.find? (fun r' => r'.name == name) = none := by
    rw [List.find?_eq_none]
    intro r hr hbeq
    exact h (List.mem_map.mpr ⟨r, hr, beq_iff_eq.mp hbeq⟩)
  rw [hfind]

theorem splitParams_pp_keys {names : List String}
    {values : List (String × Option String)} {k : String}
    (h : k ∈ (splitParams names values).1.map Prod.fst) : k ∈ names := by
  induction values with
  | nil => simp [splitParams] at h
  | cons kv rest ih =>
    rcases kv with ⟨k', v?⟩
    cases v? with
    | none => exact ih h
    | some v =>
      simp only [splitParams] at h
      split at h
      · rcases List.mem_map.mp h with ⟨⟨k2, v2⟩, hmem, hk2⟩
        rcases List.mem_cons.mp hmem with heq | hmem'
        · rw [← hk2, heq]
          assumption
        · exact ih (List.mem_map.mpr ⟨⟨k2, v2⟩, hmem', hk2⟩)
      · exact ih h

theorem splitParams_qp_keys {names : List String}
    {values : List (String × Option String)} {k : String}
    (h : k ∈ (splitParams names values).2.map Prod.fst) : k ∉ names := by
  induction values with
  | nil => simp [splitParams] at h
  | cons kv rest ih =>
    rcases kv with ⟨k', v?⟩
    cases v? with
    | none => exact ih h
    | some v =>
      simp only [splitParams] at h
      split at h
      · exact ih h
      · rcases List.mem_map.mp h with ⟨⟨k2, v2⟩, hmem, hk2⟩
        rcases List.mem_cons.mp hmem with heq | hmem'
        · rw [← hk2, heq]
          assumption
        · exact ih (List.mem_map.mpr ⟨⟨k2, v2⟩, hmem', hk2⟩)

theorem splitParams_mem_pp {names : List String}
    {values : List (String × Option String)} {k v : String}
    (h : (k, some v) ∈ values) (hk : k ∈ names) :
    (k, v) ∈ (splitParams names values).1 := by
  induction values with
  | nil => simp at h
  | cons kv rest ih =>
    rcases List.mem_cons.mp h with heq | hmem
    · rw [← heq]
      simp only [splitParams, if_pos hk]
      simp
    · rcases kv with ⟨k', v?⟩
      cases v? with
      | none => exact ih hmem
      | some v' =>
        simp only [splitParams]
        split
        · exact List.mem_cons_of_mem _ (ih hmem)
        · exact ih hmem

theorem splitParams_mem_qp {names : List String}
    {values : List (String × Option String)} {k v : String}
    (h : (k, some v) ∈ values) (hk : k ∉ names) :
    (k, v) ∈ (splitParams names values).2 := by
  induction values with
  | nil => simp at h
  | cons kv rest ih =>
    rcases List.mem_cons.mp h with heq | hmem
    · rw [← heq]
      simp only [splitParams, if_neg hk]
      simp
    · rcases kv with ⟨k', v?⟩
      cases v? with
      | none => exact ih hmem
      | some v' =>
        simp only [splitParams]
        split
        · exact ih hmem
        · exact List.mem_cons_of_mem _ (ih hmem)

theorem splitParams_key_source {names : List String}
    {values : List (String × Option String)} {k : String}
    (h : k ∈ (splitParams names values).1.map Prod.fst ∨
      k ∈ (splitParams names values).2.map Prod.fst) :
    ∃ v, (k, some v) ∈ values := by
  induction values with
  | nil => simp [splitParams] at h
  | cons kv rest ih =>
    rcases kv with ⟨k', v?⟩
    cases v? with
    | none =>
      rcases ih h with ⟨v, hv⟩
      exact ⟨v, List.mem_cons_of_mem _ hv⟩
    | some v' =>
      simp only [splitParams] at h
      by_cases hk' : k' ∈ names
      · rw [if_pos hk'] at h
        rcases h with h | h
        · rcases List.mem_map.mp h with ⟨⟨k2, v2⟩, hmem, hk2⟩
          rcases List.mem_cons.mp hmem with heq | hmem'
          · refine ⟨v', ?_⟩
            have : k = k' := by
              rw [← hk2, heq]
            rw [this]
            simp
          · rcases ih (Or.inl (List.mem_map.mpr ⟨⟨k2, v2⟩, hmem', hk2⟩))
              with ⟨v, hv⟩
            exact ⟨v, List.mem_cons_of_mem _ hv⟩
        · rcases ih (Or.inr h) with ⟨v, hv⟩
          exact ⟨v, List.mem_cons_of_mem _ hv⟩
      · rw [if_neg hk'] at h
        rcases h with h | h
        · rcases ih (Or.inl h) with ⟨v, hv⟩
          exact ⟨v, List.mem_cons_of_mem _ hv⟩
        · rcases List.mem_map.mp h with ⟨⟨k2, v2⟩, hmem, hk2⟩
          rcases List.mem_cons.mp hmem with heq | hmem'
          · refine ⟨v', ?_⟩
            have : k = k' := by
              rw [← hk2, heq]
            rw [this]
            simp
          · rcases ih (Or.inr (List.mem_map.mpr ⟨⟨k2, v2⟩, hmem', hk2⟩))
              with ⟨v, hv⟩
            exact ⟨v, List.mem_cons_of_mem _ hv⟩

/-- With unique keys, two bindings of the same key in an entry list are
the same binding. -/
theorem nodup_keys_val_unique {l : List (String × Option String)}
    (h : (l.map Prod.fst).Nodup) {k : String} {a b : Option String}
    (ha : (k, a) ∈ l) (hb : (k, b) ∈ l) : a = b := by
  induction l with
  | nil => simp at ha
  | cons kv rest ih =>
    rw [List.map_cons, List.nodup_cons] at h
    rcases List.mem_cons.mp ha with heqa | hmema
    · rcases List.mem_cons.mp hb with heqb | hmemb
      · rw [← heqa] at heqb
        exact (Prod.mk.injEq .. ▸ heqb).2.symm
      · exfalso
        apply h.1
        have hk : kv.1 = k := by rw [← heqa]
        rw [hk]
        exact List.mem_map.mpr ⟨(k, b), hmemb, rfl⟩
    · rcases List.mem_cons.mp hb with heqb | hmemb
      · exfalso
        apply h.1
        have hk : kv.1 = k := by rw [← heqb]
        rw [hk]
        exact List.mem_map.mpr ⟨(k, a), hmema, rfl⟩
      · exact ih h.2 hmema hmemb

/-! ### Claim theorems -/

/-- C2: for every route definition and caller-supplied value mapping,
splitParams produces two disjoint buckets: a key bound to a defined
value that is a placeholder name lands (with its value) only in the
path-parameter bucket, a key bound to a defined value that is not a
placeholder name lands only in the query-parameter bucket, and a key
bound to an undefined value lands in neither bucket. -/
theorem splitParams_split_correct
    (names : List String) (values : List (String × Option String))
    (k v : String) (hnodup : (values.map Prod.fst).Nodup) :
    ((k, some v) ∈ values →
      (k ∈ names → (k, v) ∈ (splitParams names values).1 ∧
        k ∉ (splitParams names values).2.map Prod.fst) ∧
      (k ∉ names → (k, v) ∈ (splitParams names values).2 ∧
        k ∉ (splitParams names values).1.map Prod.fst)) ∧
    ((k, none) ∈ values →
      k ∉ (splitParams names values).1.map Prod.fst ∧
      k ∉ (splitParams names values).2.map Prod.fst) ∧
    (∀ k', k' ∈ (splitParams names values).1.map Prod.fst →
      k' ∉ (splitParams names values).2.map Prod.fst) := by
  refine ⟨?_, ?_, ?_⟩
  · intro hmem
    constructor
    · intro hk
      exact ⟨splitParams_mem_pp hmem hk,
        fun hq => (splitParams_qp_keys hq) hk⟩
    · intro hk
      exact ⟨splitParams_mem_qp hmem hk,
        fun hp => hk (splitParams_pp_keys hp)⟩
  · intro hmem
    constructor
    · intro hp
      obtain ⟨v', hv'⟩ := splitParams_key_source (Or.inl hp)
      exact Option.noConfusion (nodup_keys_val_unique hnodup hv' hmem)
    · intro hq
      obtain ⟨v', hv'⟩ := splitParams_key_source (Or.inr hq)
      exact Option.noConfusion (nodup_keys_val_unique hnodup hv' hmem)
  · intro k' hp hq
    exact (splitParams_qp_keys hq) (splitParams_pp_keys hp)

/-- Witness for C2 at the example from the specification: route placeholder id,
values id=1, sort=asc, page undefined. -/
theorem splitParams_split_correct_witness :
    ("id", "1") ∈
      (splitParams ["id"]
        [("id", some "1"), ("sort", some "asc"), ("page", none)]).1 ∧
    ("sort", "asc") ∈
      (splitParams ["id"]
        [("id", some "1"), ("sort", some "asc"), ("page", none)]).2 ∧
    "page" ∉
      (splitParams ["id"]
        [("id", some "1"), ("sort", some "asc"), ("page", none)]).1.map
        Prod.fst :=
  ⟨(((splitParams_split_correct ["id"]
      [("id", some "1"), ("sort", some "asc"), ("page", none)]
      "id" "1" (by decide)).1 (by decide)).1 (by decide)).1,
   (((splitParams_split_correct ["id"]
      [("id", some "1"), ("sort", some "asc"), ("page", none)]
      "sort" "asc" (by decide)).1 (by decide)).2 (by decide)).1,
   ((splitParams_split_correct ["id"]
      [("id", some "1"), ("sort", some "asc"), ("page", none)]
      "page" "x" (by decide)).2.1 (by decide)).1⟩

/-- C4: a replace event whose state carries the query-only marker (as
produced by setQuery) causes notify to invoke no listener at all, while
any event that is not a marked replace causes every registered listener
to be invoked exactly once. -/
theorem setQuery_suppresses_notify
    (st : RouterState) (loc : Location) (k : String) (v : Option String)
    (u : Update)
    (hu : ¬ (u.action = HAction.replace ∧ u.isQueryUpdate = true)) :
    notifyCalls ((setQuery loc k v).2) st = [] ∧
    (notifyCalls u st).map Prod.fst = st.listeners ∧
    ∀ l, ((notifyCalls u st).map Prod.fst).count l =
      st.listeners.count l := by
  have hmap : ∀ (L : List Nat) (c : Option Route),
      (L.map fun l => (l, c)).map Prod.fst = L := by
    intro L c
    induction L with
    | nil => rfl
    | cons a t ih => simp [ih]
  have h2 : (notifyCalls u st).map Prod.fst = st.listeners := by
    unfold notifyCalls
    rw [if_neg hu, hmap]
  refine ⟨?_, h2, fun l => by rw [h2]⟩
  show notifyCalls ⟨HAction.replace, true⟩ st = []
  simp [notifyCalls]

/-- Witness for C4: a setQuery-tagged event reaches no listener while a
push event reaches both registered listeners. -/
theorem setQuery_suppresses_notify_witness :
    notifyCalls (setQuery ⟨"/a", ""⟩ "x" (some "y")).2
      ⟨[], ⟨"/a", ""⟩, [1, 2]⟩ = [] ∧
    (notifyCalls pushUpdate ⟨[], ⟨"/a", ""⟩, [1, 2]⟩).map Prod.fst =
      [1, 2] := by
  have h := setQuery_suppresses_notify ⟨[], ⟨"/a", ""⟩, [1, 2]⟩
    ⟨"/a", ""⟩ "x" (some "y") pushUpdate (by decide)
  exact ⟨h.1, h.2.1⟩

/-- C6: reading current never throws (it is a total function into an
option type); it is the explicit absence value exactly when no
configured route matcher accepts the current pathname. -/
theorem currentRoute_none_iff (st : RouterState) :
    currentRoute st = none ↔
      ∀ r ∈ st.routes, r.path.test st.loc.pathname = none := by
  unfold currentRoute getActiveRoute
  rw [List.find?_eq_none]
  constructor
  · intro h r hr
    have := h r hr
    cases hc : r.path.test st.loc.pathname with
    | none => rfl
    | some ps => rw [hc] at this; simp at this
  · intro h r hr
    simp [h r hr]

/-- C7: calling url, push or replace with a name absent from the route
table yields a synchronous lookup error, produces no URL and performs
no navigation, and leaves the routes and the registered listeners
unchanged. -/
theorem unknown_name_errors
    (st : RouterState) (name : String)
    (values : List (String × Option String))
    (h : name ∉ st.routes.map Route.name) :
    (∃ e, url st.routes name values = .error e) ∧
    (pushCall st name values).1 = st ∧
    (∃ e, (pushCall st name values).2 = .error e) ∧
    (replaceCall st name values).1 = st ∧
    (∃ e, (replaceCall st name values).2 = .error e) ∧
    (pushCall st name values).1.routes = st.routes ∧
    (pushCall st name values).1.listeners = st.listeners := by
  have hg := getRoute_error_of_absent h
  have hpush : pushCall st name values =
      (st, .error ("Can not find route for " ++ name)) := by
    unfold pushCall
    rw [hg]
  have hrepl : replaceCall st name values =
      (st, .error ("Can not find route for " ++ name)) := by
    unfold replaceCall
    rw [hg]
  refine ⟨⟨"Can not find route for " ++ name, ?_⟩, ?_,
    ⟨"Can not find route for " ++ name, ?_⟩, ?_,
    ⟨"Can not find route for " ++ name, ?_⟩, ?_, ?_⟩
  · unfold url
    rw [hg]
  · rw [hpush]
  · rw [hpush]
  · rw [hrepl]
  · rw [hrepl]
  · rw [hpush]
  · rw [hpush]

/-- Witness for C7: looking up an unconfigured name errors and leaves
the state untouched. -/
theorem unknown_name_errors_witness :
    (∃ e, url (createRoutes [("home", "/home")] none) "zzz" [] =
      .error e) ∧
    (pushCall ⟨createRoutes [("home", "/home")] none, ⟨"/", ""⟩, [7]⟩
      "zzz" []).1 =
      ⟨createRoutes [("home", "/home")] none, ⟨"/", ""⟩, [7]⟩ := by
  have h := unknown_name_errors
    ⟨createRoutes [("home", "/home")] none, ⟨"/", ""⟩, [7]⟩ "zzz" []
    (by decide)
  exact ⟨h.1, h.2.1⟩

/-- C10: setQuery replaces the location keeping the pathname and setting
the search to a question mark followed by the serialization of the
updated query mapping; removing the last remaining key therefore leaves
a search of exactly the lone question mark. -/
theorem setQuery_replace_shape (loc : Location) (k : String)
    (v : Option String) :
    (setQuery loc k v).1.pathname = loc.pathname ∧
    (setQuery loc k v).1.search =
      "?" ++ stringify (updateQuery (parse loc.search) k v) ∧
    (setQuery ⟨"/items", "?a=1"⟩ "a" none).1.search = "?" := by
  exact ⟨rfl, rfl, by decide⟩

/-- C1: route resolution scans the routes in configuration order: a
resolved route occurs in the table at a position before which every
matcher rejects the path (so when two matchers accept, the earlier
declaration wins), its captured parameters are the captures of its matcher,
and the not-found sentinel is returned exactly when every matcher
rejects the path. -/
theorem getActiveRoute_first_match (routes : List Route)
    (pathname : String) :
    (∀ r, getActiveRoute routes pathname = some r →
      (∃ ps, r.path.test pathname = some ps ∧
        r.currentParams pathname = ps) ∧
      ∃ i : Nat, routes[i]? = some r ∧
        ∀ j : Nat, j < i → ∀ r', routes[j]? = some r' →
          r'.path.test pathname = none) ∧
    (getActiveRoute routes pathname = none ↔
      ∀ r ∈ routes, r.path.test pathname = none) := by
  constructor
  · intro r hr
    have hpred := List.find?_some hr
    have hsome : ∃ ps, r.path.test pathname = some ps := by
      cases hc : r.path.test pathname with
      | none => rw [hc] at hpred; simp at hpred
      | some ps => exact ⟨ps, rfl⟩
    obtain ⟨ps, hps⟩ := hsome
    refine ⟨⟨ps, hps, by simp [Route.currentParams, hps]⟩, ?_⟩
    obtain ⟨i, hi, _, hj⟩ := find?_spec _ routes r hr
    refine ⟨i, hi, fun j hji r' hr' => ?_⟩
    have hfalse := hj j hji r' hr'
    cases hc : r'.path.test pathname with
    | none => rfl
    | some ps' => rw [hc] at hfalse; simp at hfalse
  · unfold getActiveRoute
    rw [List.find?_eq_none]
    constructor
    · intro h r hr
      have := h r hr
      cases hc : r.path.test pathname with
      | none => rfl
      | some ps => rw [hc] at this; simp at this
    · intro h r hr
      simp [h r hr]

/-- Witness for C1: a one-route table resolving a concrete path. -/
theorem getActiveRoute_first_match_witness :
    (∃ ps, (Route.mk "a" (Path.compile "/x/:p")).path.test "/x/1" =
        some ps ∧
      (Route.mk "a" (Path.compile "/x/:p")).currentParams "/x/1" = ps) ∧
    ∃ i : Nat, (createRoutes [("a", "/x/:p")] none)[i]? =
        some (Route.mk "a" (Path.compile "/x/:p")) ∧
      ∀ j : Nat, j < i → ∀ r',
        (createRoutes [("a", "/x/:p")] none)[j]? = some r' →
          r'.path.test "/x/1" = none :=
  (getActiveRoute_first_match (createRoutes [("a", "/x/:p")] none)
    "/x/1").1 ⟨"a", Path.compile "/x/:p"⟩ (by decide)

/-- C8: with no base the reported pathname is the location pathname
unchanged; with base /app the route /items compiles against the
base-prefixed template /app/items, matches location /app/items, reports
pathname /items, and url returns the base-prefixed /app/items. -/
theorem base_mounting :
    (∀ loc : Location, routerPathname none loc = loc.pathname) ∧
    createRoutes [("items", "/items")] (some "/app") =
      [⟨"items", Path.compile "/app/items"⟩] ∧
    (getActiveRoute (createRoutes [("items", "/items")] (some "/app"))
      "/app/items").map Route.name = some "items" ∧
    routerPathname (some "/app") ⟨"/app/items", ""⟩ = "/items" ∧
    url (createRoutes [("items", "/items")] (some "/app")) "items" [] =
      .ok "/app/items" := by
  refine ⟨fun loc => rfl, by decide, by decide, by decide, ?_⟩
  rfl

/-! ### Lemmas for the url format claim -/

theorem data_append (s t : String) : (s ++ t).data = s.data ++ t.data := by
  cases s
  cases t
  rfl

theorem createRoutes_mem {config : List (String × String)}
    {base : Option String} {route : Route}
    (h : route ∈ createRoutes config base) :
    ∃ nt ∈ config,
      route = ⟨nt.1, Path.compile (normBase base ++ stripQuery nt.2)⟩ := by
  unfold createRoutes at h
  rcases List.mem_map.mp h with ⟨nt, hmem, hroute⟩
  exact ⟨nt, hmem, hroute.symm⟩

theorem stripQuery_no_qmark (t : String) : '?' ∉ (stripQuery t).data := by
  intro h
  have := List.mem_takeWhile_imp h
  simp at this

theorem build_no_qmark {route : Route} {tpl : String} {pp : Params}
    {p : String} (hcomp : route.path = Path.compile tpl)
    (htpl : '?' ∉ tpl.data) (hb : route.path.build pp = .ok p) :
    '?' ∉ p.data := by
  unfold Path.build at hb
  cases hball : buildAll pp route.path.segs with
  | error e => rw [hball] at hb; simp [Except.map] at hb
  | ok pieces =>
    rw [hball] at hb
    simp only [Except.map, Except.ok.injEq] at hb
    rw [← hb]
    intro hmem
    have hmem' : '?' ∈ joinChar '/' pieces := hmem
    rcases mem_joinChar hmem' with h | ⟨q, hq, hcq⟩
    · exact absurd h (by decide)
    · rcases buildAll_mem hball q hq with ⟨l, hl, hql⟩ | ⟨cs, hqcs⟩
      · rw [hql] at hcq
        rw [hcomp] at hl
        exact htpl (compile_lit_sub hl '?' hcq)
      · rw [hqcs] at hcq
        exact (mem_encodeChars hcq) (by simp)

/-- C5: for a route found in the table whose path builds successfully,
url returns exactly the built path when the query bucket is empty and
the built path, a question mark and the encoded query when it is
nonempty; the built path itself contains no question mark (so an empty
bucket never leaves a trailing one). -/
theorem url_format
    (config : List (String × String)) (base : Option String)
    (name : String) (values : List (String × Option String))
    (route : Route) (p : String)
    (hq : '?' ∉ (normBase base).data)
    (hr : getRoute (createRoutes config base) name = .ok route)
    (hb : route.path.build
      (splitParams route.path.paramNames values).1 = .ok p) :
    url (createRoutes config base) name values =
      .ok (if (splitParams route.path.paramNames values).2 = [] then p
        else p ++ "?" ++
          stringify (splitParams route.path.paramNames values).2) ∧
    ((splitParams route.path.paramNames values).2 ≠ [] →
      stringify (splitParams route.path.paramNames values).2 ≠ "") ∧
    '?' ∉ p.data ∧
    p.data.getLast? ≠ some '?' := by
  have hnq : '?' ∉ p.data := by
    obtain ⟨nt, _, hroute⟩ := createRoutes_mem (getRoute_ok_mem hr)
    have hcomp : route.path =
        Path.compile (normBase base ++ stripQuery nt.2) := by
      rw [hroute]
    have htpl : '?' ∉ (normBase base ++ stripQuery nt.2).data := by
      rw [data_append, List.mem_append]
      rintro (h | h)
      · exact hq h
      · exact stripQuery_no_qmark nt.2 h
    exact build_no_qmark hcomp htpl hb
  refine ⟨?_, fun hne => fun h0 => hne (stringify_eq_empty.mp h0), hnq, ?_⟩
  · unfold url
    rw [hr]
    show (match route.path.build (splitParams route.path.paramNames values).1
        with
      | Except.error e => (Except.error e : Except String String)
      | Except.ok pathname =>
        if stringify (splitParams route.path.paramNames values).2 = ""
        then Except.ok pathname
        else Except.ok (pathname ++ "?" ++
          stringify (splitParams route.path.paramNames values).2)) = _
    rw [hb]
    show (if stringify (splitParams route.path.paramNames values).2 = ""
      then (Except.ok p : Except String String)
      else Except.ok (p ++ "?" ++
        stringify (splitParams route.path.paramNames values).2)) = _
    by_cases hqp : (splitParams route.path.paramNames values).2 = []
    · rw [if_pos hqp, if_pos (stringify_eq_empty.mpr hqp)]
    · rw [if_neg hqp,
        if_neg (fun h0 => hqp (stringify_eq_empty.mp h0))]
  · intro hlast
    rcases List.mem_getLast?_eq_getLast
      (show '?' ∈ p.data.getLast? from hlast) with ⟨hne2, heq⟩
    exact hnq (heq ▸ List.getLast_mem hne2)

/-- Witness for C5: the example route with a query value and
with no query value. -/
theorem url_format_witness :
    url (createRoutes [("item", "/items/:id")] none) "item"
      [("id", some "1"), ("sort", some "asc")] = .ok "/items/1?sort=asc" ∧
    url (createRoutes [("item", "/items/:id")] none) "item"
      [("id", some "1")] = .ok "/items/1" := by
  have h1 := url_format [("item", "/items/:id")] none "item"
    [("id", some "1"), ("sort", some "asc")]
    ⟨"item", Path.compile "/items/:id"⟩ "/items/1"
  have h2 := url_format [("item", "/items/:id")] none "item"
    [("id", some "1")]
    ⟨"item", Path.compile "/items/:id"⟩ "/items/1"
  constructor
  · have := (h1 (by decide) (by rfl) (by rfl)).1
    rw [this]
    rfl
  · have := (h2 (by decide) (by rfl) (by rfl)).1
    rw [this]
    rfl

/-- C3 (amended): for a route compiled from a template with only
required path parameters, all of them supplied with nonempty values,
and whose built path is rejected by every earlier-declared matcher,
url(name, values) followed by matching the built path against the route
table yields back the same route name and the same path-parameter
values, and decoding the produced search string yields back exactly the
query bucket. -/
theorem url_match_round_trip
    (routes : List Route) (name : String)
    (values : List (String × Option String)) (r : Route) (tpl : String)
    (p : String) (i : Nat)
    (hr : getRoute routes name = .ok r)
    (hcomp : r.path = Path.compile tpl)
    (hs : hasSplat r.path.segs = false)
    (hb : r.path.build (splitParams r.path.paramNames values).1 = .ok p)
    (hne : ∀ n v, Seg.param n ∈ r.path.segs →
      alookup n (splitParams r.path.paramNames values).1 = some v →
      v ≠ "")
    (hi : routes[i]? = some r)
    (hfirst : ∀ j : Nat, j < i → ∀ r', routes[j]? = some r' →
      r'.path.test p = none) :
    url routes name values =
      .ok (if (splitParams r.path.paramNames values).2 = [] then p
        else p ++ "?" ++
          stringify (splitParams r.path.paramNames values).2) ∧
    (getActiveRoute routes p).map Route.name = some name ∧
    (∃ ps, r.path.test p = some ps ∧
      ∀ k, alookup k ps = if k ∈ r.path.paramNames
        then alookup k (splitParams r.path.paramNames values).1
        else none) ∧
    parse (stringify (splitParams r.path.paramNames values).2) =
      (splitParams r.path.paramNames values).2 := by
  have hnil : r.path.segs ≠ [] := by
    rw [hcomp]
    exact compile_segs_ne_nil tpl
  have hlit : ∀ l, Seg.lit l ∈ r.path.segs → '/' ∉ l := by
    intro l hl
    rw [hcomp] at hl
    exact compile_lit_no_slash hl
  obtain ⟨ps, htest, hlk⟩ := test_build hs hnil hlit hb hne
  have hactive : getActiveRoute routes p = some r := by
    unfold getActiveRoute
    refine find?_first _ routes i r hi ?_ ?_
    · rw [htest]
      rfl
    · intro j hj r' hr'
      rw [hfirst j hj r' hr']
      rfl
  refine ⟨?_, ?_, ⟨ps, htest, hlk⟩, parse_stringify _⟩
  · unfold url
    rw [hr]
    show (match r.path.build (splitParams r.path.paramNames values).1
        with
      | Except.error e => (Except.error e : Except String String)
      | Except.ok pathname =>
        if stringify (splitParams r.path.paramNames values).2 = ""
        then Except.ok pathname
        else Except.ok (pathname ++ "?" ++
          stringify (splitParams r.path.paramNames values).2)) = _
    rw [hb]
    show (if stringify (splitParams r.path.paramNames values).2 = ""
      then (Except.ok p : Except String String)
      else Except.ok (p ++ "?" ++
        stringify (splitParams r.path.paramNames values).2)) = _
    by_cases hqp : (splitParams r.path.paramNames values).2 = []
    · rw [if_pos hqp, if_pos (stringify_eq_empty.mpr hqp)]
    · rw [if_neg hqp,
        if_neg (fun h0 => hqp (stringify_eq_empty.mp h0))]
  · rw [hactive]
    show some r.name = some name
    rw [getRoute_ok_name hr]

/-- Witness for C3: the example route item: /items/:id with a
path value and a query value round-trips through url and match. -/
theorem url_match_round_trip_witness :
    url (createRoutes [("item", "/items/:id")] none) "item"
      [("id", some "123"), ("sort", some "asc")] =
      .ok (if (splitParams
          (Route.mk "item" (Path.compile "/items/:id")).path.paramNames
          [("id", some "123"), ("sort", some "asc")]).2 = []
        then "/items/123"
        else "/items/123" ++ "?" ++
          stringify (splitParams
            (Route.mk "item" (Path.compile "/items/:id")).path.paramNames
            [("id", some "123"), ("sort", some "asc")]).2) ∧
    (getActiveRoute (createRoutes [("item", "/items/:id")] none)
      "/items/123").map Route.name = some "item" ∧
    (∃ ps, (Route.mk "item"
        (Path.compile "/items/:id")).path.test "/items/123" = some ps ∧
      ∀ k, alookup k ps =
        if k ∈ (Route.mk "item"
            (Path.compile "/items/:id")).path.paramNames
        then alookup k (splitParams
          (Route.mk "item" (Path.compile "/items/:id")).path.paramNames
          [("id", some "123"), ("sort", some "asc")]).1
        else none) ∧
    parse (stringify (splitParams
        (Route.mk "item" (Path.compile "/items/:id")).path.paramNames
        [("id", some "123"), ("sort", some "asc")]).2) =
      (splitParams
        (Route.mk "item" (Path.compile "/items/:id")).path.paramNames
        [("id", some "123"), ("sort", some "asc")]).2 :=
  url_match_round_trip (createRoutes [("item", "/items/:id")] none)
    "item" [("id", some "123"), ("sort", some "asc")]
    ⟨"item", Path.compile "/items/:id"⟩ "/items/:id" "/items/123" 0
    (by rfl) (by rfl) (by rfl) (by rfl)
    (by
      intro n v hn hv
      have hsegs : (Route.mk "item" (Path.compile "/items/:id")).path.segs =
          [Seg.lit [], Seg.lit ['i', 't', 'e', 'm', 's'],
            Seg.param "id"] := rfl
      rw [hsegs] at hn
      simp at hn
      subst hn
      have h123 : alookup "id"
          (splitParams
            (Route.mk "item" (Path.compile "/items/:id")).path.paramNames
            [("id", some "123"), ("sort", some "asc")]).1 =
          some "123" := rfl
      rw [h123] at hv
      injection hv with hv
      rw [← hv]
      decide)
    (by rfl)
    (fun j hj r' hr' => absurd hj (by simp))

/-- C3 counterexample: in a table where the matcher of an earlier route also
accepts the built path, url for the later route builds a path whose
resolution returns the name of the earlier route, so the round trip does not
return the original name. -/
theorem url_match_round_trip_cex :
    url (createRoutes [("a", "/x/:p"), ("b", "/x/:q")] none) "b"
      [("q", some "1")] = .ok "/x/1" ∧
    (getActiveRoute (createRoutes [("a", "/x/:p"), ("b", "/x/:q")] none)
      "/x/1").map Route.name ≠ some "b" := by
  constructor
  · rfl
  · decide

end TypedClientRouter
